import Mathlib

/-!
Verification of `systemheaven.py`: a shell-like pipeline builder.

The Python source is shallowly embedded below:
* `expandvars` mirrors `expandvars(words, kwargs)`;
* `spawnStep` / `spawnLoop` / `shSpawn` mirror the `for i, command in
  enumerate(commands)` loop of `sh`;
* `Pipeline`, `Pipeline.wait`, `Pipeline.ok`, `Pipeline.returncode` mirror the
  `Pipeline` class;
* `sh` mirrors the tail of the `sh` function (handle vs blocking result).

Python dict values that may be a `str` or a list of `str` are modelled by
`Value`; the external process-creation primitive (`Popen`) is modelled by a
`Proc` record whose eventual exit status is supplied by an oracle
`exec : List String → Int` keyed on the argument vector, and whose
stream attributes (`.stdin` / `.stdout`, present iff spawned with `PIPE`)
are recorded in `stdinSpec` / `stdoutPiped`.  Waiting on a process is total
(the collaborator contract: waiting on an already-exited process succeeds),
so `Proc.wait` is a pure state update.
-/

/-- A binding value: Python `str` or `list[str]`. -/
inductive Value where
  | str (s : String)
  | list (l : List String)
deriving DecidableEq

/-- The `kwargs` mapping: variable name to bound value (`none` = absent). -/
abbrev Bindings : Type := String → Option Value

/-- Embedding of `expandvars(words, kwargs)`: a word starting with `"$"` is
replaced by `kwargs.get(word[1:], "")` — appended as one word when the value
is a string, spliced when it is a list; other words pass through. -/
def expandvars : List String → Bindings → List String
  | [], _ => []
  | word :: ws, kwargs =>
    (match word.toList with
     | a :: rest =>
       if a = '$' then
         match kwargs (String.mk rest) with
         | none => [""]
         | some (Value.str s) => [s]
         | some (Value.list l) => l
       else [word]
     | [] => [word]) ++ expandvars ws kwargs

/-- Per-word expansion as the specification describes it: a word that starts
with `$` has its remainder looked up; a bound string becomes exactly one
output word (even `""`), a bound sequence is spliced element-wise, an absent
key yields one empty-string word; any other word passes through unchanged. -/
def expandWordSpec (kwargs : Bindings) (word : String) : List String :=
  match word.toList with
  | a :: rest =>
    if a = '$' then
      match kwargs (String.mk rest) with
      | some (Value.str s) => [s]
      | some (Value.list l) => l
      | none => [""]
    else [word]
  | [] => [word]

/-- Python `pipeline.split("|")` on the character list: split on every `'|'`,
keeping empty segments; the empty input gives one empty segment. -/
def splitOnChar (c : Char) : List Char → List (List Char)
  | [] => [[]]
  | a :: as =>
    if a = c then [] :: splitOnChar c as
    else
      match splitOnChar c as with
      | [] => [[a]]
      | g :: gs => (a :: g) :: gs

/-- Helper for `pysplit`: accumulates the current word (reversed). -/
def pysplitAux : List Char → List Char → List String
  | [], cur => if cur.isEmpty then [] else [String.mk cur.reverse]
  | a :: as, cur =>
    if a.isWhitespace then
      (if cur.isEmpty then [] else [String.mk cur.reverse]) ++ pysplitAux as []
    else pysplitAux as (a :: cur)

/-- Python `command.split()`: split on whitespace runs, discarding empties. -/
def pysplit (command : List Char) : List String := pysplitAux command []

/-- How a spawned process's standard input was wired: inherited, a fresh
caller-writable pipe (`stdin=PIPE`), or the output stream of the process at
index `j` of the process list (`stdin=procs[-1].stdout`). -/
inductive InSpec where
  | inherit
  | pipe
  | fromPrev (j : Nat)
deriving DecidableEq

/-- A spawned child process (`Popen` result).  `stdoutPiped` records
`stdout=PIPE`; `exitCode` is the eventual exit status; `reaped` is set once
`wait()` has been called. -/
structure Proc where
  argv : List String
  stdinSpec : InSpec
  stdoutPiped : Bool
  cwd : Option Value
  env : Option Value
  exitCode : Int
  reaped : Bool
deriving DecidableEq

def dummyProc : Proc :=
  { argv := [], stdinSpec := InSpec.inherit, stdoutPiped := false,
    cwd := none, env := none, exitCode := 0, reaped := false }

/-- The `.stdin` attribute of a `Popen` object: a stream handle iff the
process was spawned with `stdin=PIPE`. -/
def Proc.stdinAttr (p : Proc) : Option Unit :=
  if p.stdinSpec = InSpec.pipe then some () else none

/-- The `.stdout` attribute of a `Popen` object: a stream handle iff the
process was spawned with `stdout=PIPE`. -/
def Proc.stdoutAttr (p : Proc) : Option Unit :=
  if p.stdoutPiped then some () else none

/-- Python `proc.wait()`: blocks, then returns the exit status; total even on
an already-reaped process (the collaborator contract). -/
def Proc.wait (p : Proc) : Int × Proc :=
  (p.exitCode, { p with reaped := true })

/-- Python `proc.returncode`: the exit status once terminated, `None`
before. -/
def Proc.returncode (p : Proc) : Option Int :=
  if p.reaped then some p.exitCode else none

/-- The mutable state of `sh`'s loop: the spawned process list, the two
open-end flags, and how many consecutive-pipe warnings were printed. -/
structure SpawnState where
  procs : List Proc
  headpipe : Bool
  tailpipe : Bool
  warnings : Nat
deriving DecidableEq

def initState : SpawnState :=
  { procs := [], headpipe := false, tailpipe := false, warnings := 0 }

/-- The process spawned for one non-empty segment: Python's
`Popen(words, stdin=stdin, stdout=stdout, cwd=kwargs.get("_cwd", None),
env=kwargs.get("_env", None))` together with the stream-wiring computation
that precedes it. -/
def spawnedProc (kwargs : Bindings) (exec : List String → Int) (n i : Nat)
    (words2 : List String) (st : SpawnState) : Proc :=
  { argv := words2
    stdinSpec :=
      match st.procs.getLast? with
      | some prev =>
        if prev.stdoutPiped then InSpec.fromPrev (st.procs.length - 1)
        else InSpec.inherit
      | none => if st.headpipe then InSpec.pipe else InSpec.inherit
    stdoutPiped := decide (i < n - 1)
    cwd := kwargs ("_cwd")
    env := kwargs ("_env")
    exitCode := exec words2
    reaped := false }

/-- One iteration of `sh`'s loop at index `i` (with `n` raw segments). -/
def spawnStep (kwargs : Bindings) (exec : List String → Int) (n i : Nat)
    (command : List Char) (st : SpawnState) : SpawnState :=
  let words := pysplit command
  if words = [] then
    if i = 0 then { st with headpipe := true }
    else if i = n - 1 then { st with tailpipe := true }
    else { st with warnings := st.warnings + 1 }
  else
    let words2 := expandvars words kwargs
    { st with procs := st.procs ++ [spawnedProc kwargs exec n i words2 st] }

/-- Recursion over the enumerated segments of `sh`'s loop. -/
def spawnLoop (kwargs : Bindings) (exec : List String → Int) (n : Nat) :
    Nat → List (List Char) → SpawnState → SpawnState
  | _, [], st => st
  | i, c :: cs, st =>
    spawnLoop kwargs exec n (i + 1) cs (spawnStep kwargs exec n i c st)

/-- The state after `sh`'s loop: split on `"|"`, then process each segment. -/
def shSpawn (pipeline : String) (kwargs : Bindings)
    (exec : List String → Int) : SpawnState :=
  let commands := splitOnChar '|' pipeline.toList
  spawnLoop kwargs exec commands.length 0 commands initState

/-- Number of interior empty segments (empty at an index that is neither 0
nor `n - 1`) — the segments the loop warns about. -/
def interiorCount (n : Nat) : Nat → List (List Char) → Nat
  | _, [] => 0
  | i, c :: cs =>
    (if pysplit c = [] ∧ i ≠ 0 ∧ i ≠ n - 1 then 1 else 0) +
      interiorCount n (i + 1) cs

/-- The only unhandled error the embedded code can raise: an out-of-bounds
list access (`procs[0]` / `procs[-1]` on an empty list). -/
inductive ShError where
  | indexError
deriving DecidableEq

/-- The `Pipeline` class: the process list plus the `.stdin` / `.stdout`
attributes captured from the first and last process. -/
structure Pipeline where
  procs : List Proc
  stdin : Option Unit
  stdout : Option Unit
deriving DecidableEq

/-- Embedding of `Pipeline.__init__`: `self.stdin = procs[0].stdin` and
`self.stdout = procs[-1].stdout`; raises `IndexError` on an empty list. -/
def mkPipeline : List Proc → Except ShError Pipeline
  | [] => Except.error ShError.indexError
  | p :: ps =>
    Except.ok { procs := p :: ps, stdin := p.stdinAttr,
                stdout := ((p :: ps).getLastD p).stdoutAttr }

/-- Loop `for proc in self.procs: proc.wait()` — reap every process in
order. -/
def waitAll (ps : List Proc) : List Proc :=
  ps.map (fun p => (p.wait).2)

/-- Property `Pipeline.returncode`: the last process's `returncode`. -/
def Pipeline.returncode (pl : Pipeline) : Option Int :=
  (pl.procs.getLast?).bind Proc.returncode

/-- Method `Pipeline.wait`: waits for all processes, returns
`self.returncode`. -/
def Pipeline.wait (pl : Pipeline) : Option Int × Pipeline :=
  let pl2 := { pl with procs := waitAll pl.procs }
  (pl2.returncode, pl2)

/-- Property `Pipeline.ok`: `self.wait() == 0`. -/
def Pipeline.ok (pl : Pipeline) : Bool × Pipeline :=
  let r := pl.wait
  (r.1 == some 0, r.2)

/-- The tail of `sh`: return a `Pipeline` when `headpipe or tailpipe`,
otherwise wait for every process and return `procs[-1].returncode`. -/
def sh (pipeline : String) (kwargs : Bindings) (exec : List String → Int) :
    Except ShError (Option Int ⊕ Pipeline) :=
  let st := shSpawn pipeline kwargs exec
  if st.headpipe || st.tailpipe then
    (mkPipeline st.procs).map Sum.inr
  else
    match (waitAll st.procs).getLast? with
    | none => Except.error ShError.indexError
    | some p => Except.ok (Sum.inl p.returncode)

/-- Example bindings used in concrete witnesses. -/
def kEx : Bindings := fun s =>
  if s = "x" then some (Value.str "hello")
  else if s = "_cwd" then some (Value.str "/tmp")
  else none

/-- Example exit-status oracle: `false` exits 1, everything else exits 0. -/
def eEx : List String → Int := fun argv =>
  if argv = ["false"] then 1 else 0

/-- Bindings used for the corrected-claim witness about reserved names. -/
def kU : Bindings := fun s =>
  if s = "_cwd" then some (Value.str "/srv") else none

/-- The concrete handle returned by `sh` for the head-open pipeline
`"| a"` (used to instantiate stream-presence facts). -/
def pipeEx : Pipeline :=
  match sh ("| a") kEx eEx with
  | Except.ok (Sum.inr h) => h
  | _ => { procs := [], stdin := none, stdout := none }

/-! ### Step characterization lemmas -/

theorem spawnStep_empty_zero (k : Bindings) (e : List String → Int) (n : Nat)
    (c : List Char) (st : SpawnState) (hc : pysplit c = []) :
    spawnStep k e n 0 c st = { st with headpipe := true } := by
  simp [spawnStep, hc]

theorem spawnStep_empty_last (k : Bindings) (e : List String → Int) (n i : Nat)
    (c : List Char) (st : SpawnState) (hc : pysplit c = []) (hi : i ≠ 0)
    (hl : i = n - 1) :
    spawnStep k e n i c st = { st with tailpipe := true } := by
  subst hl
  simp [spawnStep, hc, hi]

theorem spawnStep_empty_mid (k : Bindings) (e : List String → Int) (n i : Nat)
    (c : List Char) (st : SpawnState) (hc : pysplit c = []) (hi : i ≠ 0)
    (hl : i ≠ n - 1) :
    spawnStep k e n i c st = { st with warnings := st.warnings + 1 } := by
  simp [spawnStep, hc, hi, hl]

theorem spawnStep_spawn (k : Bindings) (e : List String → Int) (n i : Nat)
    (c : List Char) (st : SpawnState) (hc : pysplit c ≠ []) :
    spawnStep k e n i c st =
      { st with procs :=
          st.procs ++ [spawnedProc k e n i (expandvars (pysplit c) k) st] } := by
  simp [spawnStep, hc]

/-! ### Loop invariants -/

theorem spawnLoop_procs_mono (k : Bindings) (e : List String → Int) (n : Nat) :
    ∀ (cs : List (List Char)) (i : Nat) (st : SpawnState),
      ∃ t, (spawnLoop k e n i cs st).procs = st.procs ++ t := by
  intro cs
  induction cs with
  | nil => intro i st; exact ⟨[], by simp [spawnLoop]⟩
  | cons c cs ih =>
    intro i st
    obtain ⟨t, ht⟩ := ih (i + 1) (spawnStep k e n i c st)
    by_cases hc : pysplit c = []
    · by_cases hi : i = 0
      · subst hi
        refine ⟨t, ?_⟩
        rw [spawnLoop, ht, spawnStep_empty_zero k e n c st hc]
      · by_cases hl : i = n - 1
        · refine ⟨t, ?_⟩
          rw [spawnLoop, ht, spawnStep_empty_last k e n i c st hc hi hl]
        · refine ⟨t, ?_⟩
          rw [spawnLoop, ht, spawnStep_empty_mid k e n i c st hc hi hl]
    · refine ⟨spawnedProc k e n i (expandvars (pysplit c) k) st :: t, ?_⟩
      rw [spawnLoop, ht, spawnStep_spawn k e n i c st hc]
      simp

theorem spawnLoop_headpipe_stable (k : Bindings) (e : List String → Int)
    (n : Nat) :
    ∀ (cs : List (List Char)) (i : Nat) (st : SpawnState), i ≠ 0 →
      (spawnLoop k e n i cs st).headpipe = st.headpipe := by
  intro cs
  induction cs with
  | nil => intro i st _; rfl
  | cons c cs ih =>
    intro i st hi
    rw [spawnLoop]
    rw [ih (i + 1) _ (Nat.succ_ne_zero i)]
    by_cases hc : pysplit c = []
    · by_cases hl : i = n - 1
      · rw [spawnStep_empty_last k e n i c st hc hi hl]
      · rw [spawnStep_empty_mid k e n i c st hc hi hl]
    · rw [spawnStep_spawn k e n i c st hc]

theorem splitOnChar_ne_nil (c : Char) (l : List Char) :
    splitOnChar c l ≠ [] := by
  induction l with
  | nil => simp [splitOnChar]
  | cons a as ih =>
    rw [splitOnChar]
    by_cases ha : a = c
    · simp [ha]
    · simp only [ha, if_false]
      cases h : splitOnChar c as with
      | nil => simp
      | cons g gs => simp

theorem spawnLoop_warnings (k : Bindings) (e : List String → Int) (n : Nat) :
    ∀ (cs : List (List Char)) (i : Nat) (st : SpawnState),
      (spawnLoop k e n i cs st).warnings = st.warnings + interiorCount n i cs := by
  intro cs
  induction cs with
  | nil => intro i st; simp [spawnLoop, interiorCount]
  | cons c cs ih =>
    intro i st
    rw [spawnLoop, ih (i + 1), interiorCount]
    by_cases hc : pysplit c = []
    · by_cases hi : i = 0
      · subst hi
        rw [spawnStep_empty_zero k e n c st hc]
        simp [hc]
      · by_cases hl : i = n - 1
        · rw [spawnStep_empty_last k e n i c st hc hi hl]
          simp [hc, hi, hl]
        · rw [spawnStep_empty_mid k e n i c st hc hi hl]
          simp [hc, hi, hl]
          omega
    · rw [spawnStep_spawn k e n i c st hc]
      simp [hc]

theorem spawnLoop_nospawn_all_empty (k : Bindings) (e : List String → Int)
    (n : Nat) :
    ∀ (cs : List (List Char)) (i : Nat) (st : SpawnState),
      (spawnLoop k e n i cs st).procs = st.procs →
      ∀ c ∈ cs, pysplit c = [] := by
  intro cs
  induction cs with
  | nil => intro i st _ c hc; simp at hc
  | cons c cs ih =>
    intro i st hkeep c' hc'
    by_cases hc : pysplit c = []
    · have hstep : (spawnStep k e n i c st).procs = st.procs := by
        by_cases hi : i = 0
        · subst hi; rw [spawnStep_empty_zero k e n c st hc]
        · by_cases hl : i = n - 1
          · rw [spawnStep_empty_last k e n i c st hc hi hl]
          · rw [spawnStep_empty_mid k e n i c st hc hi hl]
      rcases List.mem_cons.mp hc' with h | h
      · subst h; exact hc
      · refine ih (i + 1) (spawnStep k e n i c st) ?_ c' h
        rw [spawnLoop] at hkeep
        rw [hkeep, hstep]
    · exfalso
      obtain ⟨t, ht⟩ :=
        spawnLoop_procs_mono k e n cs (i + 1) (spawnStep k e n i c st)
      rw [spawnLoop, ht, spawnStep_spawn k e n i c st hc] at hkeep
      simp at hkeep

theorem spawnLoop_tailpipe (k : Bindings) (e : List String → Int) (n : Nat) :
    ∀ (cs : List (List Char)) (i : Nat) (st : SpawnState),
      i + cs.length = n →
      (spawnLoop k e n i cs st).tailpipe =
        (st.tailpipe ||
          (decide (cs ≠ []) && decide (2 ≤ n) &&
            decide (pysplit (cs.getLastD []) = []))) := by
  intro cs
  induction cs with
  | nil => intro i st _; simp [spawnLoop]
  | cons c cs ih =>
    intro i st hlen
    rw [spawnLoop]
    cases cs with
    | nil =>
      have hin : i = n - 1 := by simp at hlen; omega
      rw [spawnLoop]
      by_cases hc : pysplit c = []
      · by_cases hi : i = 0
        · subst hi
          have hn : n = 1 := by simpa using hlen.symm
          rw [spawnStep_empty_zero k e n c st hc]
          simp [hn, hc]
        · rw [spawnStep_empty_last k e n i c st hc hi hin]
          have hn : 2 ≤ n := by simp at hlen; omega
          simp [hc, hn]
      · rw [spawnStep_spawn k e n i c st hc]
        simp [hc]
    | cons c2 cs2 =>
      have hlen2 : (i + 1) + (c2 :: cs2).length = n := by
        simp at hlen ⊢; omega
      have hstep : (spawnStep k e n i c st).tailpipe = st.tailpipe := by
        by_cases hc : pysplit c = []
        · by_cases hi : i = 0
          · subst hi; rw [spawnStep_empty_zero k e n c st hc]
          · have hl : i ≠ n - 1 := by simp at hlen; omega
            rw [spawnStep_empty_mid k e n i c st hc hi hl]
        · rw [spawnStep_spawn k e n i c st hc]
      rw [ih (i + 1) _ hlen2, hstep]
      simp [List.getLastD_cons]

theorem shSpawn_headpipe (p : String) (k : Bindings) (e : List String → Int) :
    (shSpawn p k e).headpipe =
      decide (pysplit ((splitOnChar '|' p.toList).headD []) = []) := by
  simp only [shSpawn]
  cases h : splitOnChar '|' p.toList with
  | nil => exact absurd h (splitOnChar_ne_nil _ _)
  | cons c cs =>
    rw [spawnLoop, spawnLoop_headpipe_stable k e _ cs 1 _ one_ne_zero]
    by_cases hc : pysplit c = []
    · rw [spawnStep_empty_zero k e _ c initState hc]
      simp [hc]
    · rw [spawnStep_spawn k e _ 0 c initState hc]
      simp [hc, initState]

theorem shSpawn_procs_ne_nil (p : String) (k : Bindings)
    (e : List String → Int) (hhp : (shSpawn p k e).headpipe = false) :
    (shSpawn p k e).procs ≠ [] := by
  have hfirst := shSpawn_headpipe p k e
  rw [hhp] at hfirst
  cases h : splitOnChar '|' p.toList with
  | nil => exact absurd h (splitOnChar_ne_nil _ _)
  | cons c cs =>
    rw [h] at hfirst
    simp at hfirst
    simp only [shSpawn]
    rw [h, spawnLoop, spawnStep_spawn k e _ 0 c initState hfirst]
    obtain ⟨t, ht⟩ := spawnLoop_procs_mono k e (c :: cs).length cs 1
      { initState with procs :=
          initState.procs ++
            [spawnedProc k e (c :: cs).length 0
              (expandvars (pysplit c) k) initState] }
    rw [ht]
    simp

theorem spawnLoop_stdin (k : Bindings) (e : List String → Int) (n : Nat) :
    ∀ (cs : List (List Char)) (i : Nat) (st : SpawnState), i ≠ 0 →
      st.procs = [] →
      (spawnLoop k e n i cs st).procs = [] ∨
      ((spawnLoop k e n i cs st).procs.headD dummyProc).stdinSpec =
        (if st.headpipe then InSpec.pipe else InSpec.inherit) := by
  intro cs
  induction cs with
  | nil => intro i st _ hp; left; exact hp
  | cons c cs ih =>
    intro i st hi hp
    by_cases hc : pysplit c = []
    · by_cases hl : i = n - 1
      · rw [spawnLoop, spawnStep_empty_last k e n i c st hc hi hl]
        have := ih (i + 1) { st with tailpipe := true }
          (Nat.succ_ne_zero i) (by simpa using hp)
        simpa using this
      · rw [spawnLoop, spawnStep_empty_mid k e n i c st hc hi hl]
        have := ih (i + 1) { st with warnings := st.warnings + 1 }
          (Nat.succ_ne_zero i) (by simpa using hp)
        simpa using this
    · rw [spawnLoop, spawnStep_spawn k e n i c st hc]
      right
      obtain ⟨t, ht⟩ := spawnLoop_procs_mono k e n cs (i + 1)
        { st with procs :=
            st.procs ++ [spawnedProc k e n i (expandvars (pysplit c) k) st] }
      rw [ht]
      simp [hp, spawnedProc]

theorem spawnLoop_stdin_zero (k : Bindings) (e : List String → Int) (n : Nat)
    (c : List Char) (cs : List (List Char)) :
    (spawnLoop k e n 0 (c :: cs) initState).procs = [] ∨
    ((spawnLoop k e n 0 (c :: cs) initState).procs.headD dummyProc).stdinSpec =
      (if (spawnLoop k e n 0 (c :: cs) initState).headpipe then InSpec.pipe
       else InSpec.inherit) := by
  by_cases hc : pysplit c = []
  · rw [spawnLoop, spawnStep_empty_zero k e n c initState hc]
    rcases spawnLoop_stdin k e n cs 1
        { initState with headpipe := true } one_ne_zero rfl with hL | hR
    · left; exact hL
    · right
      rw [hR, spawnLoop_headpipe_stable k e n cs 1 _ one_ne_zero]
  · rw [spawnLoop, spawnStep_spawn k e n 0 c initState hc]
    right
    rw [spawnLoop_headpipe_stable k e n cs 1 _ one_ne_zero]
    obtain ⟨t, ht⟩ := spawnLoop_procs_mono k e n cs 1
      { initState with procs :=
          initState.procs ++
            [spawnedProc k e n 0 (expandvars (pysplit c) k) initState] }
    rw [ht]
    simp [spawnedProc, initState]

theorem shSpawn_stdin (p : String) (k : Bindings) (e : List String → Int) :
    (shSpawn p k e).procs = [] ∨
    ((shSpawn p k e).procs.headD dummyProc).stdinSpec =
      (if (shSpawn p k e).headpipe then InSpec.pipe else InSpec.inherit) := by
  obtain ⟨c, cs, h⟩ : ∃ c cs, splitOnChar '|' p.toList = c :: cs := by
    cases hx : splitOnChar '|' p.toList with
    | nil => exact absurd hx (splitOnChar_ne_nil _ _)
    | cons c cs => exact ⟨c, cs, rfl⟩
  have hres := spawnLoop_stdin_zero k e (c :: cs).length c cs
  simp only [shSpawn, h]
  exact hres

theorem spawnLoop_stdout (k : Bindings) (e : List String → Int) (n : Nat) :
    ∀ (cs : List (List Char)) (i : Nat) (st : SpawnState),
      i + cs.length = n → st.tailpipe = false →
      (spawnLoop k e n i cs st).procs = st.procs ∨
      ((spawnLoop k e n i cs st).procs.getLastD dummyProc).stdoutPiped =
        (spawnLoop k e n i cs st).tailpipe := by
  intro cs
  induction cs with
  | nil => intro i st _ _; left; rfl
  | cons c cs ih =>
    intro i st hlen htp
    by_cases hc : pysplit c = []
    · cases cs with
      | nil =>
        rw [spawnLoop, spawnLoop]
        left
        by_cases hi : i = 0
        · subst hi; rw [spawnStep_empty_zero k e n c st hc]
        · have hl : i = n - 1 := by simp at hlen; omega
          rw [spawnStep_empty_last k e n i c st hc hi hl]
      | cons c2 cs2 =>
        have hne : i ≠ n - 1 := by simp at hlen; omega
        rw [spawnLoop]
        by_cases hi : i = 0
        · subst hi
          rw [spawnStep_empty_zero k e n c st hc]
          have := ih 1 { st with headpipe := true }
            (by simp at hlen ⊢; omega) (by simpa using htp)
          simpa using this
        · rw [spawnStep_empty_mid k e n i c st hc hi hne]
          have := ih (i + 1) { st with warnings := st.warnings + 1 }
            (by simp at hlen ⊢; omega) (by simpa using htp)
          simpa using this
    · have hq := spawnStep_spawn k e n i c st hc
      rw [spawnLoop, hq]
      have hlen2 : (i + 1) + cs.length = n := by simp at hlen; omega
      have htp2 : ({ st with procs :=
          st.procs ++ [spawnedProc k e n i (expandvars (pysplit c) k) st] } :
            SpawnState).tailpipe = false := htp
      rcases ih (i + 1) _ hlen2 htp2 with hL | hR
      · right
        rw [hL, spawnLoop_tailpipe k e n cs (i + 1) _ hlen2]
        cases cs with
        | nil =>
          have hin : i = n - 1 := by simp at hlen; omega
          simp [spawnedProc, List.getLastD_concat, hin, htp]
        | cons c2 cs2 =>
          have hall := spawnLoop_nospawn_all_empty k e n (c2 :: cs2) (i + 1) _ hL
          have hgl : (c2 :: cs2).getLastD ([] : List Char) =
              (c2 :: cs2).getLast (by simp) := by
            rw [List.getLastD_eq_getLast?,
              List.getLast?_eq_getLast (c2 :: cs2) (by simp)]
            rfl
          have hlast : pysplit ((c2 :: cs2).getLastD []) = [] := by
            rw [hgl]
            exact hall _ (List.getLast_mem (by simp))
          rw [List.getLastD_eq_getLast?] at hlast
          have h2n : 2 ≤ n := by simp at hlen; omega
          have hilt : i < n - 1 := by simp at hlen; omega
          simp [spawnedProc, List.getLastD_concat, hlast, h2n, hilt, htp]
      · right
        exact hR

theorem shSpawn_stdout (p : String) (k : Bindings) (e : List String → Int) :
    (shSpawn p k e).procs = [] ∨
    ((shSpawn p k e).procs.getLastD dummyProc).stdoutPiped =
      (shSpawn p k e).tailpipe := by
  have h := spawnLoop_stdout k e (splitOnChar '|' p.toList).length
    (splitOnChar '|' p.toList) 0 initState (by simp) rfl
  simp only [shSpawn]
  exact h

theorem waitAll_idem (ps : List Proc) : waitAll (waitAll ps) = waitAll ps := by
  show List.map _ (List.map _ ps) = List.map _ ps
  rw [List.map_map]
  rfl

theorem spawnLoop_config (k : Bindings) (e : List String → Int) (n : Nat) :
    ∀ (cs : List (List Char)) (i : Nat) (st : SpawnState),
      (∀ q ∈ st.procs, q.cwd = k ("_cwd") ∧ q.env = k ("_env")) →
      ∀ q ∈ (spawnLoop k e n i cs st).procs,
        q.cwd = k ("_cwd") ∧ q.env = k ("_env") := by
  intro cs
  induction cs with
  | nil => intro i st hst; exact hst
  | cons c cs ih =>
    intro i st hst
    rw [spawnLoop]
    refine ih (i + 1) _ ?_
    intro q hq
    by_cases hc : pysplit c = []
    · have : (spawnStep k e n i c st).procs = st.procs := by
        by_cases hi : i = 0
        · subst hi; rw [spawnStep_empty_zero k e n c st hc]
        · by_cases hl : i = n - 1
          · rw [spawnStep_empty_last k e n i c st hc hi hl]
          · rw [spawnStep_empty_mid k e n i c st hc hi hl]
      rw [this] at hq
      exact hst q hq
    · rw [spawnStep_spawn k e n i c st hc] at hq
      simp only [List.mem_append, List.mem_singleton] at hq
      rcases hq with hq | hq
      · exact hst q hq
      · subst hq; exact ⟨rfl, rfl⟩

/-! ### Claim theorems -/

/-- C1.  For every word sequence and bindings map, `expandvars` agrees with
the word-by-word expansion the specification describes: a `$`-word bound to
a single string contributes exactly that one word (even the empty string), a
`$`-word bound to a sequence is spliced in order, a `$`-word with an absent
key contributes one empty-string word, and any other word passes through
unchanged. -/
theorem expandvars_matches_spec (words : List String) (k : Bindings) :
    expandvars words k = (words.map (expandWordSpec k)).flatten := by
  induction words with
  | nil => rfl
  | cons w ws ih =>
    rw [List.map_cons, List.flatten_cons, ← ih, expandvars]
    congr 1
    unfold expandWordSpec
    cases hw : w.toList with
    | nil => rfl
    | cons a rest =>
      change (if a = '$' then _ else [w]) = (if a = '$' then _ else [w])
      by_cases ha : a = '$'
      · rw [if_pos ha, if_pos ha]
        cases hk : k (String.mk rest) with
        | none => rfl
        | some v => cases v <;> rfl
      · rw [if_neg ha, if_neg ha]

/-- C3 counterexample.  On the empty pipeline string the loop sets only the
head-open flag: the tail-open flag stays `false`, because the `elif` that
would set it is shadowed by the `i == 0` branch for the same segment.  The
claim that BOTH flags are set is therefore false. -/
theorem sh_empty_both_flags_cex :
    (shSpawn ("") kEx eEx).headpipe = true ∧
    (shSpawn ("") kEx eEx).tailpipe = false := by decide

/-- C3 (amended).  For every bindings map and exit oracle, the empty pipeline
string yields a single empty segment at index 0 that sets the head-open flag
ONLY (the tail-open flag remains false, since the `elif` is not reached) and
spawns zero processes. -/
theorem sh_empty_headpipe_only (k : Bindings) (e : List String → Int) :
    (shSpawn ("") k e).headpipe = true ∧
    (shSpawn ("") k e).tailpipe = false ∧
    (shSpawn ("") k e).procs = [] :=
  ⟨rfl, rfl, rfl⟩

/-- C4.  Calling `sh` on the empty string crashes: the head-open flag is set
with zero processes spawned, so `Pipeline([])` evaluates `procs[0].stdin` on
the empty list and raises `IndexError` — contradicting the claim that no
unhandled error is raised. -/
theorem sh_empty_string_index_error (k : Bindings) (e : List String → Int) :
    sh ("") k e = Except.error ShError.indexError :=
  rfl

/-- C5 counterexample.  A word token `$_cwd` IS replaced by the value bound
to `_cwd` exactly the way an ordinary variable would be, contradicting the
claim that underscore-prefixed names are not ordinarily substituted. -/
theorem expandvars_underscore_cex :
    expandvars ["$_cwd"] kEx = ["/tmp"] := by decide

/-- C5 (amended).  Names beginning with the reserved prefix `_` are expanded
by `expandvars` exactly like ordinary variables (`$_cwd` becomes the bound
string); the reservation is advisory only — `sh` additionally reads the
`_cwd` and `_env` keys as the working-directory and environment
configuration of every spawned process. -/
theorem expandvars_underscore_ordinary (k : Bindings) (v : String)
    (hcwd : k ("_cwd") = some (Value.str v)) :
    expandvars ["$_cwd"] k = [v] ∧
    ∀ (p : String) (e : List String → Int) (q : Proc),
      q ∈ (shSpawn p k e).procs →
        q.cwd = k ("_cwd") ∧ q.env = k ("_env") := by
  constructor
  · have h0 : expandvars ["$_cwd"] k =
        (match k ("_cwd") with
         | none => [""]
         | some (Value.str s) => [s]
         | some (Value.list l) => l) ++ [] := rfl
    rw [h0, hcwd]
    exact rfl
  · intro p e q hq
    exact spawnLoop_config k e (splitOnChar '|' p.toList).length
      (splitOnChar '|' p.toList) 0 initState
      (fun q hq => absurd hq (by simp [initState])) q hq

/-- C5 witness: the amended theorem applied to a concrete bindings map. -/
theorem expandvars_underscore_ordinary_witness :
    expandvars ["$_cwd"] kU = ["/srv"] :=
  (expandvars_underscore_ordinary kU "/srv" (by decide)).1

/-- C9.  Calling `ok` twice on a `Pipeline` returns the same boolean both
times and leaves the handle unchanged after the first call: re-waiting on
already-reaped processes is a no-op, so the second call just returns the
already-resolved status of the tail process (and, the embedding being total,
never raises). -/
theorem pipeline_ok_idempotent (pl : Pipeline) :
    ((pl.ok).2.ok).1 = (pl.ok).1 ∧ ((pl.ok).2.ok).2 = (pl.ok).2 := by
  refine ⟨?_, ?_⟩ <;>
    simp [Pipeline.ok, Pipeline.wait, Pipeline.returncode, waitAll_idem]

/-- C10.  The lone token `$` is treated as a reference to the variable whose
name is the empty string: the result is the bound string, the spliced bound
sequence, or one empty-string word when the key `""` is absent — never the
literal pass-through of `$` itself. -/
theorem expandvars_dollar_token (k : Bindings) :
    expandvars ["$"] k =
      (match k ("") with
       | some (Value.str s) => [s]
       | some (Value.list l) => l
       | none => [""]) := by
  have h0 : expandvars ["$"] k =
      (match k ("") with
       | none => [""]
       | some (Value.str s) => [s]
       | some (Value.list l) => l) ++ [] := rfl
  rw [h0]
  cases hk : k ("") with
  | none => rfl
  | some v => cases v <;> simp

/-- C2.  For every pipeline whose first and last pipe-delimited segments are
non-empty (no head-open and no tail-open request), `sh` takes the blocking
branch: both flags are false, every spawned process is awaited (reaped), and
the returned value is the exit status of the last process only — the exit
statuses of the earlier processes do not influence the result, which holds
for every exit-status oracle `e`. -/
theorem sh_blocking_last_exit (p : String) (k : Bindings)
    (e : List String → Int)
    (h1 : pysplit ((splitOnChar '|' p.toList).headD []) ≠ [])
    (h2 : pysplit ((splitOnChar '|' p.toList).getLastD []) ≠ []) :
    (shSpawn p k e).headpipe = false ∧ (shSpawn p k e).tailpipe = false ∧
    (∀ q ∈ waitAll (shSpawn p k e).procs, q.reaped = true) ∧
    ∃ q, (shSpawn p k e).procs.getLast? = some q ∧
      sh p k e = Except.ok (Sum.inl (some q.exitCode)) := by
  have hhp : (shSpawn p k e).headpipe = false := by
    rw [shSpawn_headpipe]
    simpa using h1
  have htp : (shSpawn p k e).tailpipe = false := by
    have hfor := spawnLoop_tailpipe k e (splitOnChar '|' p.toList).length
      (splitOnChar '|' p.toList) 0 initState (by simp)
    have hgoal : (shSpawn p k e).tailpipe =
        (spawnLoop k e (splitOnChar '|' p.toList).length 0
          (splitOnChar '|' p.toList) initState).tailpipe := rfl
    rw [hgoal, hfor]
    have h2' := h2
    rw [List.getLastD_eq_getLast?] at h2'
    simp [initState]
    intro _ _
    simpa using h2'
  have hne : (shSpawn p k e).procs ≠ [] := shSpawn_procs_ne_nil p k e hhp
  refine ⟨hhp, htp, ?_, ?_⟩
  · intro q hq
    simp only [waitAll, List.mem_map] at hq
    obtain ⟨r, _, hqeq⟩ := hq
    rw [← hqeq]
    rfl
  · obtain ⟨q, hq⟩ := Option.isSome_iff_exists.mp
      (List.getLast?_isSome.mpr hne)
    refine ⟨q, hq, ?_⟩
    have hwl : (waitAll (shSpawn p k e).procs).getLast? =
        some ((q.wait).2) := by
      rw [waitAll, List.getLast?_map, hq]
      rfl
    simp only [sh, hhp, htp]
    rw [hwl]
    rfl

/-- C2 witness: for `"false | true"` with the oracle giving `false` exit 1
and `true` exit 0, the blocking result is the tail's exit status 0. -/
theorem sh_blocking_last_exit_witness :
    (∃ q, (shSpawn ("false | true") kEx eEx).procs.getLast? = some q ∧
      sh ("false | true") kEx eEx = Except.ok (Sum.inl (some q.exitCode))) ∧
    sh ("false | true") kEx eEx = Except.ok (Sum.inl (some 0)) :=
  ⟨(sh_blocking_last_exit ("false | true") kEx eEx (by decide)
      (by decide)).2.2.2, rfl⟩

/-- C6.  Interior empty segments (empty at an index that is neither first
nor last): the warning counter equals the number of interior empty segments
(exactly one diagnostic per such segment), an empty segment never spawns a
process, and `"a || b"` produces exactly the same process list — same argv,
same stream wiring with the second process reading the first one's output —
as `"a | b"`, with exactly one warning. -/
theorem sh_interior_empty_segments (p : String) (k : Bindings)
    (e : List String → Int) :
    (shSpawn p k e).warnings =
      interiorCount (splitOnChar '|' p.toList).length 0
        (splitOnChar '|' p.toList) ∧
    (∀ (n i : Nat) (c : List Char) (st : SpawnState),
      pysplit c = [] → (spawnStep k e n i c st).procs = st.procs) ∧
    (shSpawn ("a || b") k e).procs = (shSpawn ("a | b") k e).procs ∧
    (shSpawn ("a || b") k e).warnings = 1 := by
  refine ⟨?_, ?_, rfl, rfl⟩
  · have hfor := spawnLoop_warnings k e (splitOnChar '|' p.toList).length
      (splitOnChar '|' p.toList) 0 initState
    exact hfor.trans (by simp [initState])
  · intro n i c st hc
    by_cases hi : i = 0
    · subst hi; rw [spawnStep_empty_zero k e n c st hc]
    · by_cases hl : i = n - 1
      · rw [spawnStep_empty_last k e n i c st hc hi hl]
      · rw [spawnStep_empty_mid k e n i c st hc hi hl]

/-- C6 witness: an interior empty segment (index 1 of 3) spawns nothing. -/
theorem sh_interior_empty_segments_witness :
    (spawnStep kEx eEx 3 1 [] initState).procs = initState.procs :=
  (sh_interior_empty_segments ("a || b") kEx eEx).2.1 3 1 [] initState rfl

/-- C7 counterexample.  On the empty pipeline string head-open IS requested
(the flag is set), yet `sh` does not return a `Pipeline` handle: it raises
`IndexError` instead, so "returns a handle if and only if requested" fails
in the only-if-to-if direction. -/
theorem sh_handle_iff_cex :
    (shSpawn ("") kEx eEx).headpipe = true ∧
    sh ("") kEx eEx = Except.error ShError.indexError :=
  ⟨by decide, rfl⟩

/-- C7 (amended).  A `Pipeline` handle is returned only when head-open or
tail-open was requested; when neither was requested `sh` blocks and returns
a plain exit status (never a handle); and when a flag was requested, `sh`
returns a handle precisely if at least one process was spawned — with zero
processes it raises `IndexError` instead of returning anything. -/
theorem sh_handle_conditions (p : String) (k : Bindings)
    (e : List String → Int) :
    (∀ h : Pipeline, sh p k e = Except.ok (Sum.inr h) →
      ((shSpawn p k e).headpipe || (shSpawn p k e).tailpipe) = true) ∧
    (((shSpawn p k e).headpipe || (shSpawn p k e).tailpipe) = false →
      ∃ c : Option Int, sh p k e = Except.ok (Sum.inl c)) ∧
    (((shSpawn p k e).headpipe || (shSpawn p k e).tailpipe) = true →
      (shSpawn p k e).procs ≠ [] →
      ∃ h : Pipeline, sh p k e = Except.ok (Sum.inr h)) ∧
    (((shSpawn p k e).headpipe || (shSpawn p k e).tailpipe) = true →
      (shSpawn p k e).procs = [] →
      sh p k e = Except.error ShError.indexError) := by
  refine ⟨?_, ?_, ?_, ?_⟩
  · intro h hret
    cases hb : ((shSpawn p k e).headpipe || (shSpawn p k e).tailpipe) with
    | true => rfl
    | false =>
      exfalso
      simp only [sh, hb] at hret
      rw [if_neg Bool.false_ne_true] at hret
      split at hret <;> simp_all
  · intro hfl
    rw [Bool.or_eq_false_iff] at hfl
    have hne := shSpawn_procs_ne_nil p k e hfl.1
    have hwne : waitAll (shSpawn p k e).procs ≠ [] := by
      simp only [waitAll, ne_eq, List.map_eq_nil_iff]
      exact hne
    obtain ⟨q, hq⟩ := Option.isSome_iff_exists.mp
      (List.getLast?_isSome.mpr hwne)
    refine ⟨q.returncode, ?_⟩
    simp only [sh, hfl.1, hfl.2]
    rw [hq]
    simp
  · intro hfl hne
    cases hpr : (shSpawn p k e).procs with
    | nil => exact absurd hpr hne
    | cons q ps =>
      refine ⟨{ procs := q :: ps, stdin := q.stdinAttr,
                stdout := ((q :: ps).getLastD q).stdoutAttr }, ?_⟩
      simp only [sh, hfl]
      rw [hpr]
      rfl
  · intro hfl hpr
    simp only [sh, hfl]
    rw [hpr]
    rfl

/-- C7 witness: with neither end open, `sh` produces a plain exit status. -/
theorem sh_handle_conditions_witness :
    ∃ c : Option Int, sh ("false | true") kEx eEx = Except.ok (Sum.inl c) :=
  (sh_handle_conditions ("false | true") kEx eEx).2.1 (by decide)

/-- C8.  Every `Pipeline` handle returned by `sh` exposes a stdin stream
(the first spawned process's piped input) precisely when head-open was
requested and a stdout stream (the last spawned process's piped output)
precisely when tail-open was requested; the corresponding field is `none`
otherwise. -/
theorem sh_streams_present (p : String) (k : Bindings)
    (e : List String → Int) (hpl : Pipeline)
    (hret : sh p k e = Except.ok (Sum.inr hpl)) :
    hpl.stdin = (if (shSpawn p k e).headpipe then some () else none) ∧
    hpl.stdout = (if (shSpawn p k e).tailpipe then some () else none) := by
  cases hb : ((shSpawn p k e).headpipe || (shSpawn p k e).tailpipe) with
  | false =>
    exfalso
    simp only [sh, hb] at hret
    rw [if_neg Bool.false_ne_true] at hret
    split at hret <;> simp_all
  | true =>
    simp only [sh, hb] at hret
    rw [if_pos trivial] at hret
    cases hpr : (shSpawn p k e).procs with
    | nil =>
      rw [hpr] at hret
      simp [mkPipeline, Except.map] at hret
    | cons q ps =>
      rw [hpr] at hret
      simp only [mkPipeline, Except.map] at hret
      rw [Except.ok.injEq, Sum.inr.injEq] at hret
      subst hret
      constructor
      · rcases shSpawn_stdin p k e with hL | hR
        · rw [hpr] at hL; simp at hL
        · rw [hpr] at hR
          simp only [List.headD_cons] at hR
          show q.stdinAttr = _
          simp only [Proc.stdinAttr]
          rw [hR]
          cases hh : (shSpawn p k e).headpipe <;> simp
      · rcases shSpawn_stdout p k e with hL | hR
        · rw [hpr] at hL; simp at hL
        · rw [hpr] at hR
          have hgd : (q :: ps).getLastD q = (q :: ps).getLastD dummyProc := by
            rw [List.getLastD_eq_getLast?, List.getLastD_eq_getLast?,
              List.getLast?_eq_getLast (q :: ps) (by simp)]
            rfl
          show ((q :: ps).getLastD q).stdoutAttr = _
          rw [hgd]
          simp only [Proc.stdoutAttr]
          rw [hR]

/-- C8 witness: the handle built for `"| a"` has a stdin stream (head-open
was requested) and no stdout stream (tail-open was not). -/
theorem sh_streams_present_witness :
    pipeEx.stdin =
      (if (shSpawn ("| a") kEx eEx).headpipe then some () else none) ∧
    pipeEx.stdout =
      (if (shSpawn ("| a") kEx eEx).tailpipe then some () else none) :=
  sh_streams_present ("| a") kEx eEx pipeEx rfl
